import Mathlib

/-!
Verification of the charmstore repository's core subsystems against its
natural-language specification, via a shallow embedding in Lean 4.

The embedding covers:
* the schema migration engine (`internal/charmstore/migrations.go`):
  `migrate`, `getExecuted`, `setExecuted` and the declared migration list;
* the multipart blob upload protocol (`internal/blobstore/multipart.go`):
  `PutPart`, `initializePart`, `ListParts`;
* the field-include bulk handler (`internal/router/fieldinclude.go`):
  `fieldIncludeHandler.Handle`;
* `PutUnchallenged` / `Open` of the blob store, whose implementation is not
  part of the snapshot and is therefore modelled from the specification.

Go errors are modelled as values of explicit error types; the MongoDB
collections touched by the code are modelled as in-memory lists of documents,
with the conditional-update (`Update` with a selector) and upsert
(`$addToSet`) primitives given their single-document semantics.
-/

namespace Charmstore

/-- The semantics of MongoDB's `$addToSet` on an array of strings: append the
name at the end unless it is already present. Used by `setExecuted`
(`migrations.go`) and, with the same semantics, by the field-selector union in
`fieldinclude.go`. -/
def addToSet (l : List String) (n : String) : List String :=
  if n ∈ l then l else l ++ [n]

/-- A migration as declared in `migrations.go`: a stable name together with a
migration function over the database. The database is abstracted by a type
`σ`; a function returning a Go `error` is embedded as `σ → Except String σ`
(the `String` is the error message). -/
structure Migration (σ : Type) where
  name : String
  migrate : σ → Except String σ

/-- The error annotation added by `migrate` when a migration function fails:
`errgo.Notef(err, "error executing migration: %s", m.name)`. -/
def migErrMsg (name err : String) : String :=
  "error executing migration: " ++ name ++ ": " ++ err

/-- The error produced by `getExecuted` when the executed list recorded in the
database holds a name unknown to this binary. -/
def unknownMigrationMsg (name : String) : String :=
  "found unknown migration \"" ++ name ++ "\"; running old charm store code on newer charm store database?"

/-- The outcome of a call to `migrate`:
* `db` — the final state of the entity database,
* `doc` — the final `executed` array of the singleton migrations document,
* `ran` — the names whose migration function was invoked, in invocation order
  (the observable call trace of the run),
* `err` — `none` on success, otherwise the returned error message. -/
structure MigOutcome (σ : Type) where
  db : σ
  doc : List String
  ran : List String
  err : Option String

/-- `getExecuted` (`migrations.go`): read the executed names from the
migrations document (absent document ↦ empty list, folded into the `doc`
argument) and fail on the first name not in the `known` set built from the
declared migration list. On success the executed set is the set of names of
`doc`. -/
def getExecuted (known : List String) (doc : List String) : Except String (List String) :=
  match doc.find? (fun n => decide (n ∉ known)) with
  | some n => .error (unknownMigrationMsg n)
  | none => .ok doc

/-- The loop body of `migrate` (`migrations.go`). `executed` is the in-memory
set returned by `getExecuted`, which the Go code never updates during the
loop; `doc` is the persistent migrations document, updated by `setExecuted`
(an upsert with `$addToSet`) after each successful migration function; `ran`
accumulates the invocation trace. A failing migration function aborts the
loop with the annotated error, leaving `doc` as already written. -/
def migrateLoop {σ : Type} (executed : List String) :
    List (Migration σ) → σ → List String → List String → MigOutcome σ
  | [], db, doc, ran => ⟨db, doc, ran, none⟩
  | m :: rest, db, doc, ran =>
    if m.name ∈ executed then
      migrateLoop executed rest db doc ran
    else
      match m.migrate db with
      | .error e => ⟨db, doc, ran ++ [m.name], some (migErrMsg m.name e)⟩
      | .ok db' => migrateLoop executed rest db' (addToSet doc m.name) (ran ++ [m.name])

/-- `migrate` (`migrations.go`): retrieve the executed migrations, then run
every not-yet-executed migration of `migs` in declaration order. `doc` is the
`executed` array of the migrations document at entry (the absent document is
the empty list). An error from `getExecuted` aborts before any migration
function is invoked. -/
def migrate {σ : Type} (migs : List (Migration σ)) (db : σ) (doc : List String) : MigOutcome σ :=
  match getExecuted (migs.map Migration.name) doc with
  | .error e => ⟨db, doc, [], some e⟩
  | .ok executed => migrateLoop executed migs db doc []

/-- The names, in declaration order, of the `migrations` variable in
`migrations.go`. The bodies of the five migration functions
(`denormalizeEntityIds`, `createBaseEntities`, `populateReadACL`,
`populateWriteACL`, `populatePromulgatedEntities`) operate on the MongoDB
entity collections and are not modelled here; every claim about this list
concerns only the names, their order and their uniqueness, so each entry's
function is embedded as the identity on the abstract database state. -/
def migrationsList : List (Migration Unit) := [
  { name := "entity ids denormalization", migrate := fun db => .ok db },
  { name := "base entities creation", migrate := fun db => .ok db },
  { name := "read acl creation", migrate := fun db => .ok db },
  { name := "write acl creation", migrate := fun db => .ok db },
  { name := "populate promulgated entities", migrate := fun db => .ok db }]

end Charmstore

namespace Charmstore

/-- Membership in the result of folding `$addToSet` over a list of names:
exactly the old members together with the added names. -/
theorem mem_foldl_addToSet (names : List String) (l : List String) (n : String) :
    n ∈ names.foldl addToSet l ↔ n ∈ l ∨ n ∈ names := by
  induction names generalizing l with
  | nil => simp
  | cons a rest ih =>
    rw [List.foldl_cons, ih]
    by_cases h : a ∈ l <;>
      simp only [addToSet, if_pos, if_neg, h, List.mem_append, List.mem_cons,
        List.mem_singleton, if_true, if_false] <;>
      constructor <;> rintro (h' | h' | h') <;> try tauto
    · subst h'; tauto

/-- If every declared migration is already in the executed set, the loop of
`migrate` touches nothing: no function is invoked and the migrations document
is left as it was. -/
theorem migrateLoop_all_executed {σ : Type} (executed : List String)
    (migs : List (Migration σ)) (db : σ) (doc ran : List String)
    (h : ∀ m ∈ migs, m.name ∈ executed) :
    migrateLoop executed migs db doc ran = ⟨db, doc, ran, none⟩ := by
  induction migs with
  | nil => rfl
  | cons m rest ih =>
    have hm : m.name ∈ executed := h m (List.mem_cons_self m rest)
    rw [migrateLoop, if_pos hm]
    exact ih fun x hx => h x (List.mem_cons_of_mem m hx)

/-- When the loop of `migrate` succeeds, its invocation trace is exactly the
pending migrations in declaration order, and the migrations document has been
extended, via `$addToSet`, with exactly those names. -/
theorem migrateLoop_err_none {σ : Type} (executed : List String)
    (migs : List (Migration σ)) :
    ∀ (db : σ) (doc ran : List String),
    (migrateLoop executed migs db doc ran).err = none →
    (migrateLoop executed migs db doc ran).ran
        = ran ++ (migs.filter (fun m => decide (m.name ∉ executed))).map Migration.name
    ∧ (migrateLoop executed migs db doc ran).doc
        = ((migs.filter (fun m => decide (m.name ∉ executed))).map Migration.name).foldl
            addToSet doc := by
  induction migs with
  | nil => intro db doc ran _; simp [migrateLoop]
  | cons m rest ih =>
    intro db doc ran h
    by_cases hm : m.name ∈ executed
    · have hf : (m :: rest).filter (fun m => decide (m.name ∉ executed))
          = rest.filter (fun m => decide (m.name ∉ executed)) := by
        simp [List.filter_cons, hm]
      rw [migrateLoop, if_pos hm] at h ⊢
      rw [hf]
      exact ih db doc ran h
    · have hf : (m :: rest).filter (fun m => decide (m.name ∉ executed))
          = m :: rest.filter (fun m => decide (m.name ∉ executed)) := by
        simp [List.filter_cons, hm]
      rw [migrateLoop, if_neg hm] at h ⊢
      cases hmig : m.migrate db with
      | error e => rw [hmig] at h; simp at h
      | ok db' =>
        rw [hmig] at h
        dsimp only at h ⊢
        obtain ⟨h1, h2⟩ := ih db' (addToSet doc m.name) (ran ++ [m.name]) h
        rw [hf]
        refine ⟨?_, ?_⟩
        · rw [h1, List.map_cons]; simp
        · rw [h2, List.map_cons, List.foldl_cons]

/-- C1: `migrate` executes exactly the migrations whose names are not in the
recorded executed set, in declaration order; it records each invoked name in
the executed set via append-if-absent; and running it a second time right
after a successful run invokes no migration function and leaves the executed
set identical. -/
theorem migrate_runs_pending_in_order_and_is_idempotent {σ : Type}
    (migs : List (Migration σ)) (db : σ) (doc : List String)
    (hok : (migrate migs db doc).err = none) :
    (migrate migs db doc).ran
        = (migs.filter (fun m => decide (m.name ∉ doc))).map Migration.name
    ∧ (migrate migs db doc).doc = (migrate migs db doc).ran.foldl addToSet doc
    ∧ migrate migs (migrate migs db doc).db (migrate migs db doc).doc
        = ⟨(migrate migs db doc).db, (migrate migs db doc).doc, [], none⟩ := by
  cases hfind : doc.find? (fun n => decide (n ∉ migs.map Migration.name)) with
  | some n =>
    rw [migrate, getExecuted, hfind] at hok
    exact absurd hok (by simp)
  | none =>
    have hmig : migrate migs db doc = migrateLoop doc migs db doc [] := by
      rw [migrate, getExecuted, hfind]
    rw [hmig] at hok ⊢
    obtain ⟨h1, h2⟩ := migrateLoop_err_none doc migs db doc [] hok
    rw [List.nil_append] at h1
    have hknown : ∀ n ∈ doc, n ∈ migs.map Migration.name := by
      intro n hn
      have := List.find?_eq_none.mp hfind n hn
      simpa using this
    refine ⟨h1, by rw [h2, h1], ?_⟩
    set out := migrateLoop doc migs db doc [] with hout
    -- Every name in the updated document is known to this binary.
    have hdoc_known : ∀ n ∈ out.doc, n ∈ migs.map Migration.name := by
      intro n hn
      rw [h2, mem_foldl_addToSet] at hn
      rcases hn with hn | hn
      · exact hknown n hn
      · obtain ⟨m, hm, rfl⟩ := List.mem_map.mp hn
        exact List.mem_map.mpr ⟨m, List.mem_of_mem_filter hm, rfl⟩
    have hfind2 : out.doc.find? (fun n => decide (n ∉ migs.map Migration.name)) = none := by
      rw [List.find?_eq_none]
      intro n hn
      simpa using hdoc_known n hn
    -- Every declared migration name is in the updated document.
    have hall : ∀ m ∈ migs, m.name ∈ out.doc := by
      intro m hm
      rw [h2, mem_foldl_addToSet]
      by_cases hmem : m.name ∈ doc
      · exact Or.inl hmem
      · refine Or.inr (List.mem_map.mpr ⟨m, List.mem_filter.mpr ⟨hm, by simpa⟩, rfl⟩)
    rw [migrate, getExecuted, hfind2]
    exact migrateLoop_all_executed out.doc migs out.db out.doc [] hall

/-- C1 witness: a concrete two-migration run over `σ := Nat` in which the
first migration is already recorded and the second is pending. -/
theorem migrate_runs_pending_witness :
    (migrate [⟨"a", fun n => .ok (n + 1)⟩, ⟨"b", fun n => .ok (n * 2)⟩] (0 : Nat) ["a"]).err
      = none
    ∧ ((migrate [⟨"a", fun n => .ok (n + 1)⟩, ⟨"b", fun n => .ok (n * 2)⟩] (0 : Nat) ["a"]).ran
        = (([⟨"a", fun n => .ok (n + 1)⟩, ⟨"b", fun n => .ok (n * 2)⟩] :
              List (Migration Nat)).filter (fun m => decide (m.name ∉ ["a"]))).map Migration.name
      ∧ (migrate [⟨"a", fun n => .ok (n + 1)⟩, ⟨"b", fun n => .ok (n * 2)⟩] (0 : Nat) ["a"]).doc
        = (migrate [⟨"a", fun n => .ok (n + 1)⟩, ⟨"b", fun n => .ok (n * 2)⟩]
            (0 : Nat) ["a"]).ran.foldl addToSet ["a"]
      ∧ migrate [⟨"a", fun n => .ok (n + 1)⟩, ⟨"b", fun n => .ok (n * 2)⟩]
          (migrate [⟨"a", fun n => .ok (n + 1)⟩, ⟨"b", fun n => .ok (n * 2)⟩] (0 : Nat) ["a"]).db
          (migrate [⟨"a", fun n => .ok (n + 1)⟩, ⟨"b", fun n => .ok (n * 2)⟩] (0 : Nat) ["a"]).doc
        = ⟨(migrate [⟨"a", fun n => .ok (n + 1)⟩, ⟨"b", fun n => .ok (n * 2)⟩] (0 : Nat) ["a"]).db,
           (migrate [⟨"a", fun n => .ok (n + 1)⟩, ⟨"b", fun n => .ok (n * 2)⟩] (0 : Nat) ["a"]).doc,
           [], none⟩) :=
  ⟨rfl, migrate_runs_pending_in_order_and_is_idempotent _ _ _ rfl⟩

/-- When the loop of `migrate` fails, the failure arises at a unique pending
migration: the declared list splits as `pre ++ m :: post` where the whole of
`pre` was processed successfully, `m` was pending, its function returned the
error, and the loop stopped there with the annotated error, keeping the
document written so far. -/
theorem migrateLoop_err_some {σ : Type} (executed : List String)
    (migs : List (Migration σ)) :
    ∀ (db : σ) (doc ran : List String) (e : String),
    (migrateLoop executed migs db doc ran).err = some e →
    ∃ (pre : List (Migration σ)) (m : Migration σ) (post : List (Migration σ)) (efn : String),
      migs = pre ++ m :: post
      ∧ m.name ∉ executed
      ∧ e = migErrMsg m.name efn
      ∧ (migrateLoop executed pre db doc ran).err = none
      ∧ m.migrate (migrateLoop executed pre db doc ran).db = .error efn
      ∧ migrateLoop executed migs db doc ran
          = ⟨(migrateLoop executed pre db doc ran).db,
             (migrateLoop executed pre db doc ran).doc,
             (migrateLoop executed pre db doc ran).ran ++ [m.name], some e⟩ := by
  induction migs with
  | nil => intro db doc ran e h; simp [migrateLoop] at h
  | cons m rest ih =>
    intro db doc ran e h
    by_cases hm : m.name ∈ executed
    · rw [migrateLoop, if_pos hm] at h
      obtain ⟨pre, m', post, efn, hsplit, hnm, hef, hpre, hfailm, heq⟩ := ih db doc ran e h
      refine ⟨m :: pre, m', post, efn, by rw [hsplit, List.cons_append], hnm, hef, ?_, ?_, ?_⟩
      · simp only [migrateLoop, if_pos hm]; exact hpre
      · simp only [migrateLoop, if_pos hm]; exact hfailm
      · simp only [migrateLoop, if_pos hm]; exact heq
    · rw [migrateLoop, if_neg hm] at h
      cases hmig : m.migrate db with
      | error efn =>
        rw [hmig] at h
        have he : some (migErrMsg m.name efn) = some e := h
        refine ⟨[], m, rest, efn, rfl, hm, (Option.some.inj he).symm, rfl, hmig, ?_⟩
        simp only [migrateLoop, if_neg hm, hmig]
        rw [he]
      | ok db' =>
        rw [hmig] at h
        dsimp only at h
        obtain ⟨pre, m', post, efn, hsplit, hnm, hef, hpre, hfailm, heq⟩ :=
          ih db' (addToSet doc m.name) (ran ++ [m.name]) e h
        refine ⟨m :: pre, m', post, efn, by rw [hsplit, List.cons_append], hnm, hef, ?_, ?_, ?_⟩
        · simp only [migrateLoop, if_neg hm, hmig]; exact hpre
        · simp only [migrateLoop, if_neg hm, hmig]; exact hfailm
        · simp only [migrateLoop, if_neg hm, hmig]; exact heq

/-- C6: when a migration function fails, `migrate` returns the error annotated
with that migration's name; the pending migrations before it were invoked in
order and their names recorded in the executed set; the failing migration's
name is not recorded; and no later migration is invoked. -/
theorem migrate_failing_migration_spec {σ : Type}
    (migs : List (Migration σ)) (db : σ) (doc : List String) (e : String)
    (hnd : (migs.map Migration.name).Nodup)
    (hknown : ∀ n ∈ doc, n ∈ migs.map Migration.name)
    (hfail : (migrate migs db doc).err = some e) :
    ∃ (k : Nat) (hk : k < migs.length) (efn : String),
      e = migErrMsg (migs.get ⟨k, hk⟩).name efn
      ∧ (migrate migs db doc).ran
          = ((migs.take k).filter (fun x => decide (x.name ∉ doc))).map Migration.name
              ++ [(migs.get ⟨k, hk⟩).name]
      ∧ (migrate migs db doc).doc
          = (((migs.take k).filter (fun x => decide (x.name ∉ doc))).map Migration.name).foldl
              addToSet doc
      ∧ (∀ x ∈ (migs.take k).filter (fun x => decide (x.name ∉ doc)),
            x.name ∈ (migrate migs db doc).doc)
      ∧ (migs.get ⟨k, hk⟩).name ∉ (migrate migs db doc).doc
      ∧ (migs.get ⟨k, hk⟩).migrate (migrate migs db doc).db = .error efn := by
  have hfind : doc.find? (fun n => decide (n ∉ migs.map Migration.name)) = none := by
    rw [List.find?_eq_none]
    intro n hn
    simpa using hknown n hn
  have hunf : migrate migs db doc = migrateLoop doc migs db doc [] := by
    rw [migrate, getExecuted, hfind]
  rw [hunf] at hfail ⊢
  obtain ⟨pre, m, post, efn, hsplit, hnm, hef, hpre, hfailm, heq⟩ :=
    migrateLoop_err_some doc migs db doc [] e hfail
  have hk : pre.length < migs.length := by
    rw [hsplit]
    simp
  refine ⟨pre.length, hk, efn, ?_⟩
  have hget : migs.get ⟨pre.length, hk⟩ = m := by
    subst hsplit
    show (pre ++ m :: post)[pre.length] = m
    rw [List.getElem_append_right (Nat.le_refl pre.length)]
    simp
  have htake : migs.take pre.length = pre := by
    rw [hsplit]
    exact List.take_left pre (m :: post)
  obtain ⟨hran, hdoc⟩ := migrateLoop_err_none doc pre db doc [] hpre
  rw [List.nil_append] at hran
  have hmemdoc : ∀ n : String,
      n ∈ (migrateLoop doc pre db doc []).doc
        ↔ n ∈ doc ∨ n ∈ (pre.filter (fun x => decide (x.name ∉ doc))).map Migration.name := by
    intro n
    rw [hdoc, mem_foldl_addToSet]
  refine ⟨by rw [hget]; exact hef, ?_, ?_, ?_, ?_, ?_⟩
  · rw [hget, htake, heq]
    dsimp only
    rw [hran]
  · rw [htake, heq]
    dsimp only
    exact hdoc
  · intro x hx
    rw [htake] at hx
    rw [heq]
    dsimp only
    rw [hmemdoc]
    exact Or.inr (List.mem_map.mpr ⟨x, hx, rfl⟩)
  · rw [hget, heq]
    dsimp only
    rw [hmemdoc]
    rintro (hmem | hmem)
    · exact hnm hmem
    · obtain ⟨x, hx, hxname⟩ := List.mem_map.mp hmem
      have hxpre : x.name ∈ pre.map Migration.name :=
        List.mem_map.mpr ⟨x, List.mem_of_mem_filter hx, rfl⟩
      rw [hxname] at hxpre
      rw [hsplit, List.map_append, List.nodup_append] at hnd
      exact hnd.2.2 hxpre (by simp)
  · rw [hget, heq]
    dsimp only
    exact hfailm

/-- C6 witness: a two-migration list over `σ := Nat` whose second migration
function fails with "boom". -/
theorem migrate_failing_migration_witness :
    (([⟨"a", fun n => .ok (n + 1)⟩, ⟨"b", fun _ => .error "boom"⟩] :
        List (Migration Nat)).map Migration.name).Nodup
    ∧ (∀ n ∈ ([] : List String),
        n ∈ ([⟨"a", fun n => .ok (n + 1)⟩, ⟨"b", fun _ => .error "boom"⟩] :
          List (Migration Nat)).map Migration.name)
    ∧ (migrate [⟨"a", fun n => .ok (n + 1)⟩, ⟨"b", fun _ => .error "boom"⟩] (0 : Nat) []).err
        = some (migErrMsg "b" "boom")
    ∧ ∃ (k : Nat)
        (hk : k < ([⟨"a", fun n => .ok (n + 1)⟩, ⟨"b", fun _ => .error "boom"⟩] :
          List (Migration Nat)).length) (efn : String),
      migErrMsg "b" "boom"
          = migErrMsg (([⟨"a", fun n => .ok (n + 1)⟩, ⟨"b", fun _ => .error "boom"⟩] :
              List (Migration Nat)).get ⟨k, hk⟩).name efn
      ∧ (migrate [⟨"a", fun n => .ok (n + 1)⟩, ⟨"b", fun _ => .error "boom"⟩] (0 : Nat) []).ran
          = ((([⟨"a", fun n => .ok (n + 1)⟩, ⟨"b", fun _ => .error "boom"⟩] :
                List (Migration Nat)).take k).filter
              (fun x => decide (x.name ∉ ([] : List String)))).map Migration.name
              ++ [(([⟨"a", fun n => .ok (n + 1)⟩, ⟨"b", fun _ => .error "boom"⟩] :
                List (Migration Nat)).get ⟨k, hk⟩).name]
      ∧ (migrate [⟨"a", fun n => .ok (n + 1)⟩, ⟨"b", fun _ => .error "boom"⟩] (0 : Nat) []).doc
          = (((([⟨"a", fun n => .ok (n + 1)⟩, ⟨"b", fun _ => .error "boom"⟩] :
                List (Migration Nat)).take k).filter
              (fun x => decide (x.name ∉ ([] : List String)))).map Migration.name).foldl
              addToSet []
      ∧ (∀ x ∈ (([⟨"a", fun n => .ok (n + 1)⟩, ⟨"b", fun _ => .error "boom"⟩] :
              List (Migration Nat)).take k).filter
            (fun x => decide (x.name ∉ ([] : List String))),
          x.name ∈ (migrate [⟨"a", fun n => .ok (n + 1)⟩, ⟨"b", fun _ => .error "boom"⟩]
            (0 : Nat) []).doc)
      ∧ (([⟨"a", fun n => .ok (n + 1)⟩, ⟨"b", fun _ => .error "boom"⟩] :
            List (Migration Nat)).get ⟨k, hk⟩).name
          ∉ (migrate [⟨"a", fun n => .ok (n + 1)⟩, ⟨"b", fun _ => .error "boom"⟩]
            (0 : Nat) []).doc
      ∧ (([⟨"a", fun n => .ok (n + 1)⟩, ⟨"b", fun _ => .error "boom"⟩] :
            List (Migration Nat)).get ⟨k, hk⟩).migrate
            (migrate [⟨"a", fun n => .ok (n + 1)⟩, ⟨"b", fun _ => .error "boom"⟩]
              (0 : Nat) []).db
          = .error efn := by
  refine ⟨by decide, by simp, rfl, ?_⟩
  exact migrate_failing_migration_spec _ 0 [] _ (by decide) (by simp) rfl

/-- C5: if the recorded executed set holds a name that is not in the declared
migration list, `migrate` fails with the unknown-migration error before
invoking any migration function, leaving both the database and the executed
set unchanged. -/
theorem migrate_unknown_name_fails {σ : Type}
    (migs : List (Migration σ)) (db : σ) (doc : List String)
    (h : ∃ n ∈ doc, n ∉ migs.map Migration.name) :
    ∃ u ∈ doc, u ∉ migs.map Migration.name
      ∧ migrate migs db doc = ⟨db, doc, [], some (unknownMigrationMsg u)⟩ := by
  have hsome : (doc.find? (fun n => decide (n ∉ migs.map Migration.name))).isSome := by
    rw [List.find?_isSome]
    obtain ⟨n, hn, hn2⟩ := h
    exact ⟨n, hn, by simp only [decide_eq_true_eq]; exact hn2⟩
  obtain ⟨u, hu⟩ := Option.isSome_iff_exists.mp hsome
  have hpred : u ∉ migs.map Migration.name := by simpa using List.find?_some hu
  refine ⟨u, List.mem_of_find?_eq_some hu, hpred, ?_⟩
  rw [migrate, getExecuted, hu]

/-- C5 witness: a recorded name "ghost" unknown to a one-migration list. -/
theorem migrate_unknown_name_witness :
    (∃ n ∈ ["ghost"], n ∉ ([⟨"a", fun n => .ok n⟩] : List (Migration Nat)).map Migration.name)
    ∧ ∃ u ∈ ["ghost"], u ∉ ([⟨"a", fun n => .ok n⟩] : List (Migration Nat)).map Migration.name
        ∧ migrate [⟨"a", fun n => .ok n⟩] (0 : Nat) ["ghost"]
            = ⟨0, ["ghost"], [], some (unknownMigrationMsg u)⟩ := by
  have h : ∃ n ∈ ["ghost"],
      n ∉ ([⟨"a", fun n => .ok n⟩] : List (Migration Nat)).map Migration.name :=
    ⟨"ghost", by decide, by decide⟩
  exact ⟨h, migrate_unknown_name_fails _ 0 _ h⟩

end Charmstore

namespace Charmstore

/-- C8: The declared migration list consists of exactly five migrations with
names, in order: "entity ids denormalization", "base entities creation",
"read acl creation", "write acl creation", "populate promulgated entities",
and no two migrations in the list share a name. -/
theorem migrationsList_names_order_and_distinct :
    migrationsList.map Migration.name =
      ["entity ids denormalization", "base entities creation", "read acl creation",
       "write acl creation", "populate promulgated entities"]
    ∧ migrationsList.length = 5
    ∧ (migrationsList.map Migration.name).Nodup := by
  refine ⟨rfl, rfl, ?_⟩
  decide

end Charmstore

namespace Blobstore

/-- Byte sequences are abstracted as lists of bytes (`Nat` values); the only
operations the claims need are length and a hash. -/
abbrev ByteSeq := List Nat

/-- The error kinds surfaced by the blob store operations modelled here.
`notFound` embeds errors built with `errgo.WithCausef(nil, ErrNotFound, …)`
(and, spec-modelled, the `NotFound` result of `Open`); `hashMismatch` embeds
the hash-divergence failures the specification groups under the
`HashMismatch` kind; `generic` embeds every other `errgo.Newf`/`errgo.Notef`
error, carrying its message. -/
inductive BErr where
  | notFound (msg : String)
  | hashMismatch (msg : String)
  | generic (msg : String)
deriving Repr, DecidableEq

/-- One part slot of `uploadDoc.Parts` (`multipart.go`): the declared hash and
size of the part, and whether its bytes have been uploaded successfully. -/
structure UploadPart where
  hash : String
  size : Int
  complete : Bool
deriving Repr, DecidableEq

/-- The record held for a pending multipart upload (`uploadDoc` in
`multipart.go`). `parts` is a sparse array: a `none` entry is a BSON null (or
an index beyond the array's length), as left by `$set parts.N` with `N`
beyond the current length. -/
structure UploadDoc where
  id : String
  hash : String
  expires : Int
  parts : List (Option UploadPart)
deriving Repr, DecidableEq

/-- The `uploads` MongoDB collection, holding at most one document per id. -/
abbrev UploadColl := List UploadDoc

/-- The blob store's bindings of blob names to byte contents, as maintained by
`Put`; one binding per name. -/
abbrev Blobs := List (String × ByteSeq)

/-- `FindId` on the uploads collection. -/
def findId (c : UploadColl) (uploadId : String) : Option UploadDoc :=
  c.find? (fun d => d.id == uploadId)

/-- The Go test `part < len(udoc.Parts) && udoc.Parts[part] != nil`, and
equally MongoDB's `parts.N exists and is non-null`: the slot for a part
number, `none` when the slot is absent or null. -/
def slotAt (d : UploadDoc) (part : Int) : Option UploadPart :=
  if part < 0 then none else d.parts.getD part.toNat none

/-- Replace the document with the given id in the collection. -/
def replaceDoc (c : UploadColl) (uploadId : String) (d : UploadDoc) : UploadColl :=
  c.map (fun x => if x.id == uploadId then d else x)

/-- MongoDB's `$set parts.N = p` on a document: the array is padded with
nulls up to index `N` when it is shorter, then entry `N` is replaced. -/
def setSlot (d : UploadDoc) (n : Nat) (p : Option UploadPart) : UploadDoc :=
  { d with parts :=
      (d.parts ++ List.replicate (n + 1 - d.parts.length) none).set n p }

/-- The conditional claim of `initializePart` (`multipart.go`): the MongoDB
`Update` with selector `{_id: uploadId, $or: [{parts.N: {$exists: false}},
{parts.N: {$eq: null}}]}` and update `{$set: {parts.N: {hash, size,
complete: false}}}`. Returns the updated collection when the selector matched
the document, `none` when it matched nothing (`mgo.ErrNotFound`). -/
def condClaimSlot (c : UploadColl) (uploadId : String) (part : Int)
    (hash : String) (size : Int) : Option UploadColl :=
  match findId c uploadId with
  | none => none
  | some d =>
    if slotAt d part = none then
      some (replaceDoc c uploadId (setSlot d part.toNat (some ⟨hash, size, false⟩)))
    else
      none

/-- `initializePart` (`multipart.go`): create the initial record for a part
via the conditional claim; when the claim matches nothing, refetch the upload
document and re-apply the existing-slot checks. Returns whether the part
upload has already completed successfully, together with the collection. The
collection argument is the state the conditional update executes against
(which a concurrent peer may have moved past the state `PutPart` first
read). -/
def initializePart (c : UploadColl) (uploadId : String) (part : Int)
    (hash : String) (size : Int) : Except BErr (Bool × UploadColl) :=
  match condClaimSlot c uploadId part hash size with
  | some c' => .ok (false, c')
  | none =>
    match findId c uploadId with
    | none => .error (.notFound ("upload id \"" ++ uploadId ++ "\" not found"))
    | some d =>
      match slotAt d part with
      | none => .error (.generic "part update failed even though part has not been uploaded")
      | some p =>
        if p.hash ≠ hash then .error (.hashMismatch "hash mismatch for already uploaded part")
        else if p.complete then .ok (true, c)
        else .ok (false, c)

/-- The name of the chunk blob holding one part: `<uploadId>/<partNumber>`
(decimal, no padding), as built by `s.partName`. -/
def partName (uploadId : String) (part : Int) : String :=
  uploadId ++ "/" ++ toString part

/-- Modelled from the spec: the single-blob `Put` of the blob store, whose
implementation is not part of the repository snapshot (`multipart.go` and the
blob store tests only call it). Spec: it streams the bytes, verifies the
declared size and hex-SHA-384 hash against them, and on success binds the
name to the blob, replacing any prior binding of the name; it fails with
`HashMismatch` on hash divergence (the blob store test asserts the message
"hash mismatch"). The hash function is abstracted as the parameter `sha`. -/
def blobPut (sha : ByteSeq → String) (bl : Blobs) (content : ByteSeq)
    (name : String) (size : Int) (hash : String) : Except BErr Blobs :=
  if size ≠ content.length then .error (.generic "size mismatch")
  else if hash ≠ sha content then .error (.hashMismatch "hash mismatch")
  else .ok ((name, content) :: bl.filter (fun x => x.1 ≠ name))

/-- The final update of `PutPart` (`multipart.go`): `UpdateId(uploadId,
{$set: {parts.N.complete: true}})`, wrapped in "cannot mark part as
complete" on failure. Setting `complete` on a null array element follows
MongoDB's `$set` on a path through null: the element becomes a document with
only that field. -/
def markComplete (c : UploadColl) (uploadId : String) (part : Int) :
    Except BErr UploadColl :=
  match findId c uploadId with
  | none => .error (.generic "cannot mark part as complete")
  | some d =>
    let parts' := (d.parts ++ List.replicate (part.toNat + 1 - d.parts.length) none).set
      part.toNat (some (match (d.parts.getD part.toNat none) with
                        | some p => { p with complete := true }
                        | none => ⟨"", 0, true⟩))
    .ok (replaceDoc c uploadId { d with parts := parts' })

/-- The outcome of a `PutPart` call: the returned error (`none` on success)
together with the final states of the uploads collection and of the blob
bindings. Error returns leave both states as they stood at the point of
failure. -/
structure PutPartResult where
  err : Option BErr
  uploads : UploadColl
  blobs : Blobs
deriving Repr, DecidableEq

/-- The tail of `PutPart` (`multipart.go`) reached once a part record is in
place and not complete: upload the part bytes to the chunk blob
`<uploadId>/<part>` (leaving the slot incomplete if the streaming fails), then
mark the part record complete. -/
def uploadPartBytes (sha : ByteSeq → String) (uploads : UploadColl) (blobs : Blobs)
    (uploadId : String) (part : Int) (content : ByteSeq) (size : Int)
    (hash : String) : PutPartResult :=
  match blobPut sha blobs content (partName uploadId part) size hash with
  | .error _ =>
    ⟨some (.generic ("cannot upload part \"" ++ partName uploadId part ++ "\"")),
     uploads, blobs⟩
  | .ok blobs' =>
    match markComplete uploads uploadId part with
    | .error e => ⟨some e, uploads, blobs'⟩
    | .ok uploads' => ⟨none, uploads', blobs'⟩

/-- `PutPart` (`multipart.go`). Concurrent peers may write to the uploads
collection between this call's initial read and its conditional update, so
the model takes two collection states: `uploads0`, the state the initial
`FindId` reads, and `uploads1`, the state every subsequent database operation
executes against (`uploads1 = uploads0` is the interference-free run). After
the range checks, the upload record is read; an existing slot for the part is
checked for hash agreement and completeness; an absent slot is claimed
through `initializePart`; and only then are the bytes uploaded and the slot
marked complete. -/
def PutPart (sha : ByteSeq → String) (maxParts : Int)
    (uploads0 uploads1 : UploadColl) (blobs : Blobs) (uploadId : String)
    (part : Int) (content : ByteSeq) (size : Int) (hash : String) : PutPartResult :=
  if part < 0 then ⟨some (.generic "negative part number"), uploads1, blobs⟩
  else if part > maxParts then ⟨some (.generic "part number too big"), uploads1, blobs⟩
  else
    match findId uploads0 uploadId with
    | none =>
      ⟨some (.notFound ("upload id \"" ++ uploadId ++ "\" not found")), uploads1, blobs⟩
    | some udoc =>
      match slotAt udoc part with
      | some p =>
        if p.hash ≠ hash then
          ⟨some (.hashMismatch "hash mismatch for already uploaded part"), uploads1, blobs⟩
        else if p.complete then
          ⟨none, uploads1, blobs⟩
        else
          uploadPartBytes sha uploads1 blobs uploadId part content size hash
      | none =>
        match initializePart uploads1 uploadId part hash size with
        | .error e => ⟨some e, uploads1, blobs⟩
        | .ok (true, c) => ⟨none, c, blobs⟩
        | .ok (false, c) => uploadPartBytes sha c blobs uploadId part content size hash

/-- A part as returned by `ListParts` (`Part` in `multipart.go`). -/
structure MPart where
  hash : String
deriving Repr, DecidableEq

/-- `ListParts` (`multipart.go`): returns a nil part list and the error
"parts listing not implemented yet" before consulting the uploads
collection. -/
def ListParts (_uploads : UploadColl) (_uploadId : String) : Except BErr (List MPart) :=
  .error (.generic "parts listing not implemented yet")

/-- Modelled from the spec: `PutUnchallenged` of the blob store, whose
implementation is not part of the repository snapshot (only its tests are,
in the blobstore test file). Spec: "Streams bytes; verifies size and hash; on
success binds `name → blob(hash)`. Replaces prior binding of `name`
atomically. Fails with `HashMismatch` on divergence." -/
def PutUnchallenged (sha : ByteSeq → String) (bl : Blobs) (content : ByteSeq)
    (name : String) (size : Int) (hash : String) : Except BErr Blobs :=
  blobPut sha bl content name size hash

/-- Modelled from the spec: `Open` of the blob store, whose implementation is
not part of the repository snapshot. Spec: "Returns sequential reader; fails
`NotFound` if name unbound." The test asserts the error message `resource at
path "…" not found`. -/
def Open (bl : Blobs) (name : String) : Except BErr ByteSeq :=
  match bl.find? (fun x => x.1 == name) with
  | some x => .ok x.2
  | none => .error (.notFound ("resource at path \"" ++ name ++ "\" not found"))

/-- C2: if the slot for the requested part number already exists with a hash
different from the caller's, `PutPart` fails with the hash-mismatch error and
leaves both the uploads collection and the blob bindings untouched — both
when the slot is seen on the first read (`uploads0`) and when it is
discovered on the reread after the conditional claim matched nothing
(`uploads1`). -/
theorem putPart_hash_mismatch_rejects (sha : ByteSeq → String) (maxParts : Int)
    (uploads0 uploads1 : UploadColl) (blobs : Blobs) (uploadId : String)
    (part : Int) (content : ByteSeq) (size : Int) (hash : String)
    (h0 : 0 ≤ part) (h1 : part ≤ maxParts)
    (h : (∃ d p, findId uploads0 uploadId = some d ∧ slotAt d part = some p
            ∧ p.hash ≠ hash)
       ∨ (∃ d, findId uploads0 uploadId = some d ∧ slotAt d part = none
            ∧ ∃ d1 p, findId uploads1 uploadId = some d1 ∧ slotAt d1 part = some p
                ∧ p.hash ≠ hash)) :
    PutPart sha maxParts uploads0 uploads1 blobs uploadId part content size hash
      = ⟨some (.hashMismatch "hash mismatch for already uploaded part"), uploads1, blobs⟩ := by
  have hn0 : ¬ part < 0 := not_lt.mpr h0
  have hn1 : ¬ part > maxParts := not_lt.mpr h1
  rcases h with ⟨d, p, hd, hs, hp⟩ | ⟨d, hd, hs, d1, p, hd1, hs1, hp⟩
  · simp only [PutPart, if_neg hn0, if_neg hn1, hd, hs, if_pos hp]
  · have hcond : condClaimSlot uploads1 uploadId part hash size = none := by
      simp only [condClaimSlot, hd1, hs1]
      simp
    have hinit : initializePart uploads1 uploadId part hash size
        = .error (.hashMismatch "hash mismatch for already uploaded part") := by
      simp only [initializePart, hcond, hd1, hs1, if_pos hp]
    simp only [PutPart, if_neg hn0, if_neg hn1, hd, hs, hinit]

/-- C2 witness: a one-document collection whose part-0 slot holds hash "h1"
while the caller declares "h2"; the first disjunct exercises the first-read
check, applied at a concrete input. -/
theorem putPart_hash_mismatch_witness :
    (0 : Int) ≤ 0 ∧ (0 : Int) ≤ 10
    ∧ PutPart (fun _ => "x") 10 [⟨"u", "", 0, [some ⟨"h1", 3, true⟩]⟩]
        [⟨"u", "", 0, [some ⟨"h1", 3, true⟩]⟩] [] "u" 0 [] 0 "h2"
      = ⟨some (.hashMismatch "hash mismatch for already uploaded part"),
         [⟨"u", "", 0, [some ⟨"h1", 3, true⟩]⟩], []⟩ :=
  ⟨by decide, by decide,
   putPart_hash_mismatch_rejects (fun _ => "x") 10 _ _ [] "u" 0 [] 0 "h2"
     (by decide) (by decide)
     (Or.inl ⟨⟨"u", "", 0, [some ⟨"h1", 3, true⟩]⟩, ⟨"h1", 3, true⟩, rfl, rfl, by decide⟩)⟩

/-- C3: `PutPart` short-circuits on an already-complete slot with the
caller's hash, both when seen on the first read and when discovered on the
reread after a failed conditional claim, uploading no bytes and writing
nothing; and when the reread finds the peer's slot incomplete with the same
hash, it proceeds to upload the part bytes. -/
theorem putPart_complete_short_circuit_and_reread (sha : ByteSeq → String)
    (maxParts : Int) (uploads0 uploads1 : UploadColl) (blobs : Blobs)
    (uploadId : String) (part : Int) (content : ByteSeq) (size : Int)
    (hash : String) (h0 : 0 ≤ part) (h1 : part ≤ maxParts) :
    ((∃ d p, findId uploads0 uploadId = some d ∧ slotAt d part = some p
        ∧ p.hash = hash ∧ p.complete = true) →
      PutPart sha maxParts uploads0 uploads1 blobs uploadId part content size hash
        = ⟨none, uploads1, blobs⟩)
    ∧ ((∃ d, findId uploads0 uploadId = some d ∧ slotAt d part = none
          ∧ ∃ d1 p, findId uploads1 uploadId = some d1 ∧ slotAt d1 part = some p
              ∧ p.hash = hash ∧ p.complete = true) →
      PutPart sha maxParts uploads0 uploads1 blobs uploadId part content size hash
        = ⟨none, uploads1, blobs⟩)
    ∧ ((∃ d, findId uploads0 uploadId = some d ∧ slotAt d part = none
          ∧ ∃ d1 p, findId uploads1 uploadId = some d1 ∧ slotAt d1 part = some p
              ∧ p.hash = hash ∧ p.complete = false) →
      PutPart sha maxParts uploads0 uploads1 blobs uploadId part content size hash
        = uploadPartBytes sha uploads1 blobs uploadId part content size hash) := by
  have hn0 : ¬ part < 0 := not_lt.mpr h0
  have hn1 : ¬ part > maxParts := not_lt.mpr h1
  refine ⟨?_, ?_, ?_⟩
  · rintro ⟨d, p, hd, hs, hph, hpc⟩
    have hne : ¬ p.hash ≠ hash := by simp [hph]
    simp only [PutPart, if_neg hn0, if_neg hn1, hd, hs, if_neg hne, hpc, if_pos]
  · rintro ⟨d, hd, hs, d1, p, hd1, hs1, hph, hpc⟩
    have hne : ¬ p.hash ≠ hash := by simp [hph]
    have hcond : condClaimSlot uploads1 uploadId part hash size = none := by
      simp only [condClaimSlot, hd1, hs1]
      simp
    have hinit : initializePart uploads1 uploadId part hash size = .ok (true, uploads1) := by
      simp only [initializePart, hcond, hd1, hs1, if_neg hne, hpc, if_pos]
    simp only [PutPart, if_neg hn0, if_neg hn1, hd, hs, hinit]
  · rintro ⟨d, hd, hs, d1, p, hd1, hs1, hph, hpc⟩
    have hne : ¬ p.hash ≠ hash := by simp [hph]
    have hcond : condClaimSlot uploads1 uploadId part hash size = none := by
      simp only [condClaimSlot, hd1, hs1]
      simp
    have hinit : initializePart uploads1 uploadId part hash size = .ok (false, uploads1) := by
      simp only [initializePart, hcond, hd1, hs1, if_neg hne, hpc]
      simp
    simp only [PutPart, if_neg hn0, if_neg hn1, hd, hs, hinit]

/-- C3 witness: the complete-slot short circuit (first disjunct of C3)
applied at a concrete input: the slot holds the caller's hash "h1" and is
complete, and the call succeeds without touching the blob bindings. -/
theorem putPart_complete_short_circuit_witness :
    (0 : Int) ≤ 0 ∧ (0 : Int) ≤ 10
    ∧ PutPart (fun _ => "x") 10 [⟨"u", "", 0, [some ⟨"h1", 3, true⟩]⟩]
        [⟨"u", "", 0, [some ⟨"h1", 3, true⟩]⟩] [] "u" 0 [] 0 "h1"
      = ⟨none, [⟨"u", "", 0, [some ⟨"h1", 3, true⟩]⟩], []⟩ :=
  ⟨by decide, by decide,
   (putPart_complete_short_circuit_and_reread (fun _ => "x") 10 _ _ [] "u" 0 [] 0 "h1"
      (by decide) (by decide)).1
     ⟨⟨"u", "", 0, [some ⟨"h1", 3, true⟩]⟩, ⟨"h1", 3, true⟩, rfl, rfl, rfl, rfl⟩⟩

/-- C4 counterexample: the claim says `PutPart` fails for every part number
`n ≥ maxParts`, `maxParts` itself being out of range; but the code's check is
`part > maxParts`, so at `part = maxParts` (here 5) the call is accepted and,
on an upload record whose slot 5 is complete with the caller's hash, returns
success. -/
theorem putPart_accepts_maxParts :
    (PutPart (fun _ => "x") 5
        [⟨"u", "", 0, [none, none, none, none, none, some ⟨"h", 0, true⟩]⟩]
        [⟨"u", "", 0, [none, none, none, none, none, some ⟨"h", 0, true⟩]⟩]
        [] "u" 5 [] 0 "h").err = none := by
  decide

/-- C4 (amended): `PutPart` rejects exactly the part numbers outside
`[0, maxParts]`: every negative `n` fails with "negative part number" and
every `n > maxParts` (for non-negative `n`) fails with "part number too
big", in both cases without reading or modifying the upload record or the
blob bindings (the outcome is the same for every collection state). -/
theorem putPart_range_check (sha : ByteSeq → String) (maxParts : Int)
    (uploads0 uploads1 : UploadColl) (blobs : Blobs) (uploadId : String)
    (part : Int) (content : ByteSeq) (size : Int) (hash : String) :
    (part < 0 →
      PutPart sha maxParts uploads0 uploads1 blobs uploadId part content size hash
        = ⟨some (.generic "negative part number"), uploads1, blobs⟩)
    ∧ (0 ≤ part → part > maxParts →
      PutPart sha maxParts uploads0 uploads1 blobs uploadId part content size hash
        = ⟨some (.generic "part number too big"), uploads1, blobs⟩) := by
  constructor
  · intro h
    simp only [PutPart, if_pos h]
  · intro h0 h1
    simp only [PutPart, if_neg (not_lt.mpr h0), if_pos h1]

/-- C4 witness: the negative and too-big rejections applied at the concrete
part numbers -1 and 7 against `maxParts = 5`. -/
theorem putPart_range_check_witness :
    ((-1 : Int) < 0
      ∧ PutPart (fun _ => "x") 5 [] [] [] "u" (-1) [] 0 "h"
          = ⟨some (.generic "negative part number"), [], []⟩)
    ∧ ((0 : Int) ≤ 7 ∧ (7 : Int) > 5
      ∧ PutPart (fun _ => "x") 5 [] [] [] "u" 7 [] 0 "h"
          = ⟨some (.generic "part number too big"), [], []⟩) :=
  ⟨⟨by decide,
    (putPart_range_check (fun _ => "x") 5 [] [] [] "u" (-1) [] 0 "h").1 (by decide)⟩,
   ⟨by decide, by decide,
    (putPart_range_check (fun _ => "x") 5 [] [] [] "u" 7 [] 0 "h").2 (by decide) (by decide)⟩⟩

/-- C10: `ListParts` returns a nil part list and the error "parts listing not
implemented yet" for every collection state and upload id — the result does
not depend on the uploads collection at all — and the error never has the
`NotFound` kind its documentation describes. -/
theorem listParts_always_unimplemented (uploads uploads' : UploadColl)
    (uploadId uploadId' : String) :
    ListParts uploads uploadId = .error (.generic "parts listing not implemented yet")
    ∧ ListParts uploads uploadId = ListParts uploads' uploadId'
    ∧ ∀ msg, ListParts uploads uploadId ≠ .error (.notFound msg) := by
  refine ⟨rfl, rfl, fun msg h => ?_⟩
  simp [ListParts] at h

/-- C10 witness: the statement applied at concrete collection states (one of
them holding a live upload record) and ids. -/
theorem listParts_always_unimplemented_witness :
    ListParts [⟨"u", "", 0, []⟩] "u"
        = .error (.generic "parts listing not implemented yet")
    ∧ ListParts [⟨"u", "", 0, []⟩] "u" = ListParts [] "v"
    ∧ ∀ msg, ListParts [⟨"u", "", 0, []⟩] "u" ≠ .error (.notFound msg) :=
  listParts_always_unimplemented [⟨"u", "", 0, []⟩] [] "u" "v"

/-- C9: if the declared hash is not the hash of the streamed bytes,
`PutUnchallenged` fails with the hash-mismatch error (it returns no new blob
state, so an unbound name stays unbound) and `Open` of that name returns
`NotFound`. -/
theorem putUnchallenged_bad_hash (sha : ByteSeq → String) (bl : Blobs)
    (content : ByteSeq) (name : String) (size : Int) (hash : String)
    (hsize : size = content.length)
    (hhash : hash ≠ sha content)
    (hunbound : bl.find? (fun x => x.1 == name) = none) :
    PutUnchallenged sha bl content name size hash
      = .error (.hashMismatch "hash mismatch")
    ∧ Open bl name = .error (.notFound ("resource at path \"" ++ name ++ "\" not found")) := by
  constructor
  · have hns : ¬ size ≠ (content.length : Int) := by simp [hsize]
    simp only [PutUnchallenged, blobPut, if_neg hns, if_pos hhash]
  · simp only [Open, hunbound]

/-- C9 witness: putting "some data"-like content under a wrong declared hash
against an empty store, applied at a concrete input. -/
theorem putUnchallenged_bad_hash_witness :
    (0 : Int) = ([] : ByteSeq).length ∧ "bad" ≠ (fun _ : ByteSeq => "good") []
    ∧ List.find? (fun x => x.1 == "x") ([] : Blobs) = none
    ∧ PutUnchallenged (fun _ => "good") [] [] "x" 0 "bad"
        = .error (.hashMismatch "hash mismatch")
    ∧ Open [] "x" = .error (.notFound ("resource at path \"" ++ "x" ++ "\" not found")) := by
  refine ⟨by decide, by decide, rfl, ?_⟩
  exact putUnchallenged_bad_hash (fun _ => "good") [] [] "x" 0 "bad"
    (by decide) (by decide) rfl

end Blobstore

namespace Router

/-- A field-include handler as grouped by `fieldIncludeHandler.Handle`
(`fieldinclude.go`): its declared `Fields` list and its `Handle` function.
The queried document type and the per-handler result type are abstracted as
`Doc` and `R`; the entity id, HTTP method and url flags are the same for the
whole bulk call and are absorbed into the functions, while the per-handler
metadata path is passed explicitly. A Go `error` result is embedded as
`Except String`. -/
structure FieldHandler (Doc R : Type) where
  fields : List String
  handle : Doc → String → Except String R

/-- The field selector built by `Handle`: a `map[string]int` holding every
field of every handler of the group, modelled as a duplicate-free list (the
`$addToSet` insert of the migrations model is exactly set-insert on such a
list). -/
def selectorOf {Doc R : Type} (hs : List (FieldHandler Doc R)) : List String :=
  hs.foldl (fun acc h => h.fields.foldl Charmstore.addToSet acc) []

/-- The result loop of `Handle` (`fieldinclude.go`): apply each handler's
function to the queried document and its own path, aborting on the first
error. -/
def runHandlers {Doc R : Type} (doc : Doc) :
    List (FieldHandler Doc R) → List String → Except String (List R)
  | [], _ => .ok []
  | h :: rest, paths =>
    match h.handle doc (paths.headD "") with
    | .error e => .error e
    | .ok r =>
      match runHandlers doc rest paths.tail with
      | .error e => .error e
      | .ok rs => .ok (r :: rs)

/-- `fieldIncludeHandler.Handle` (`fieldinclude.go`): union the `Fields`
lists of every handler of the group into one selector, issue the single
database query with it, then apply every handler's function to the returned
document. The second component of the result is the list of selectors passed
to `query`, in call order — the query log of the invocation. -/
def handleGroup {Doc R : Type} (query : List String → Except String Doc)
    (hs : List (FieldHandler Doc R)) (paths : List String) :
    Except String (List R) × List (List String) :=
  match query (selectorOf hs) with
  | .error e => (.error e, [selectorOf hs])
  | .ok doc => (runHandlers doc hs paths, [selectorOf hs])

theorem getD_tail (paths : List String) (i : Nat) :
    paths.tail.getD i "" = paths.getD (i + 1) "" := by
  cases paths <;> simp [List.getD]

theorem headD_eq_getD_zero (paths : List String) :
    paths.headD "" = paths.getD 0 "" := by
  cases paths <;> rfl

/-- Membership in the selector accumulator: the fields already collected
together with the fields of the remaining handlers. -/
theorem mem_selector_foldl {Doc R : Type} (hs : List (FieldHandler Doc R)) :
    ∀ (acc : List String) (f : String),
    f ∈ hs.foldl (fun acc h => h.fields.foldl Charmstore.addToSet acc) acc
      ↔ f ∈ acc ∨ ∃ h ∈ hs, f ∈ h.fields := by
  induction hs with
  | nil => intro acc f; simp
  | cons h rest ih =>
    intro acc f
    rw [List.foldl_cons, ih, Charmstore.mem_foldl_addToSet]
    constructor
    · rintro ((hf | hf) | ⟨h', hh', hf⟩)
      · exact Or.inl hf
      · exact Or.inr ⟨h, List.mem_cons_self h rest, hf⟩
      · exact Or.inr ⟨h', List.mem_cons_of_mem h hh', hf⟩
    · rintro (hf | ⟨h', hh', hf⟩)
      · exact Or.inl (Or.inl hf)
      · rcases List.mem_cons.mp hh' with rfl | hh'
        · exact Or.inl (Or.inr hf)
        · exact Or.inr ⟨h', hh', hf⟩

/-- When the result loop succeeds it returns one result per handler, each the
value of that handler's function on the queried document. -/
theorem runHandlers_ok {Doc R : Type} (doc : Doc) :
    ∀ (hs : List (FieldHandler Doc R)) (paths : List String) (rs : List R),
    runHandlers doc hs paths = .ok rs →
    rs.length = hs.length
    ∧ ∀ (i : Nat) (hi : i < hs.length) (hi2 : i < rs.length),
        (hs.get ⟨i, hi⟩).handle doc (paths.getD i "") = .ok (rs.get ⟨i, hi2⟩) := by
  intro hs
  induction hs with
  | nil =>
    intro paths rs h
    rw [runHandlers] at h
    cases h
    exact ⟨rfl, fun i hi => absurd hi (Nat.not_lt_zero i)⟩
  | cons h rest ih =>
    intro paths rs hok
    rw [runHandlers] at hok
    cases hh : h.handle doc (paths.headD "") with
    | error e => rw [hh] at hok; simp at hok
    | ok r =>
      rw [hh] at hok
      cases hr : runHandlers doc rest paths.tail with
      | error e => rw [hr] at hok; simp at hok
      | ok rs' =>
        rw [hr] at hok
        dsimp only at hok
        cases hok
        obtain ⟨hlen, hpt⟩ := ih paths.tail rs' hr
        refine ⟨by simp [hlen], ?_⟩
        intro i hi hi2
        match i with
        | 0 =>
          rw [← headD_eq_getD_zero]
          simpa using hh
        | Nat.succ j =>
          have hj : j < rest.length := by simpa using hi
          have hj2 : j < rs'.length := by simpa using hi2
          have := hpt j hj hj2
          rw [getD_tail] at this
          simpa using this

/-- C7: `Handle` issues exactly one query, whose field selector is exactly
the union of the `Fields` lists of the group's handlers; on success it
returns one result per handler, each obtained by applying that handler's
function to the single queried document; and a failure of the query or of
any handler function makes the whole call return an error and no results. -/
theorem handleGroup_single_union_query {Doc R : Type}
    (query : List String → Except String Doc)
    (hs : List (FieldHandler Doc R)) (paths : List String) :
    (handleGroup query hs paths).2 = [selectorOf hs]
    ∧ (∀ f, f ∈ selectorOf hs ↔ ∃ h ∈ hs, f ∈ h.fields)
    ∧ (∀ e, query (selectorOf hs) = .error e →
        (handleGroup query hs paths).1 = .error e)
    ∧ (∀ doc, query (selectorOf hs) = .ok doc →
        (∀ rs, (handleGroup query hs paths).1 = .ok rs →
          rs.length = hs.length
          ∧ ∀ (i : Nat) (hi : i < hs.length) (hi2 : i < rs.length),
              (hs.get ⟨i, hi⟩).handle doc (paths.getD i "") = .ok (rs.get ⟨i, hi2⟩))
        ∧ (∀ (i : Nat) (hi : i < hs.length) (e : String),
            (hs.get ⟨i, hi⟩).handle doc (paths.getD i "") = .error e →
            ∃ e', (handleGroup query hs paths).1 = .error e')) := by
  refine ⟨?_, ?_, ?_, ?_⟩
  · rw [handleGroup]
    cases query (selectorOf hs) <;> rfl
  · intro f
    rw [selectorOf, mem_selector_foldl]
    simp
  · intro e he
    rw [handleGroup, he]
  · intro doc hdoc
    have hfst : (handleGroup query hs paths).1 = runHandlers doc hs paths := by
      rw [handleGroup, hdoc]
    constructor
    · intro rs hrs
      rw [hfst] at hrs
      exact runHandlers_ok doc hs paths rs hrs
    · intro i hi e he
      rw [hfst]
      cases hr : runHandlers doc hs paths with
      | error e' => exact ⟨e', rfl⟩
      | ok rs =>
        obtain ⟨hlen, hpt⟩ := runHandlers_ok doc hs paths rs hr
        have := hpt i hi (hlen ▸ hi)
        rw [he] at this
        simp at this

/-- C7 witness: a group of two handlers with overlapping field lists against
a query echoing its selector, applied at a concrete input. -/
theorem handleGroup_single_union_query_witness :
    (handleGroup (fun sel => .ok sel)
        [⟨["a", "b"], fun (doc : List String) _ => .ok doc.length⟩,
         ⟨["b", "c"], fun _ _ => .ok 0⟩] ["p", "q"]).2
      = [selectorOf [⟨["a", "b"], fun (doc : List String) _ => .ok doc.length⟩,
         ⟨["b", "c"], fun _ _ => .ok (0 : Nat)⟩]]
    ∧ (∀ f, f ∈ selectorOf [⟨["a", "b"], fun (doc : List String) _ => .ok doc.length⟩,
          ⟨["b", "c"], fun _ _ => .ok (0 : Nat)⟩]
        ↔ ∃ h ∈ ([⟨["a", "b"], fun (doc : List String) _ => .ok doc.length⟩,
            ⟨["b", "c"], fun _ _ => .ok 0⟩] :
              List (FieldHandler (List String) Nat)), f ∈ h.fields) := by
  have h := handleGroup_single_union_query (fun sel => .ok sel)
    [⟨["a", "b"], fun (doc : List String) _ => .ok doc.length⟩, ⟨["b", "c"], fun _ _ => .ok 0⟩]
    ["p", "q"]
  exact ⟨h.1, h.2.1⟩

end Router
